/-
  Verification of the Digraph container in src/Digraph/Digraph.hpp.

  Shallow embedding notes:
  * The identifier type `T` (an arithmetic type in the source) is modelled
    as `Nat`.
  * `std::unordered_set<T>` is modelled as a duplicate-free `List Nat`
    whose order is the insertion order (a legal iteration order for an
    unordered set); `insert` appends when the element is absent, `erase`
    filters it out.
  * `std::map<T, std::unique_ptr<Node<T>>>` is modelled as an association
    list ordered by key on insertion; lookups find the first matching key.
  * Exceptions are modelled by returning the error value together with the
    state the structure holds at the moment of the throw, so "the graph is
    unchanged after a failed call" is a real theorem, not a modelling
    artifact.
  * The two search functions receive the caller-supplied output vector and
    return its final contents; they never write to the node map, matching
    the source, which only reads it.  Their loops/recursion are driven by
    an explicit fuel counter; running out of fuel yields `none`, and
    termination theorems show the chosen fuel is never exhausted.
-/

import Mathlib

namespace DigraphSpec

abbrev Ident := Nat

/-- The two exception classes of the source: `node_not_found` carries the
caller name (`FUNC_NAME`) and the offending uid; `node_uniqueness_violation`
carries the duplicated uid. -/
inductive DigraphError where
  | node_not_found (caller : String) (uid : Ident)
  | node_uniqueness_violation (uid : Ident)
deriving DecidableEq, Repr

/-- `Node<T>`: a uid plus the two unordered sets `in` and `out`
(`in` is a Lean keyword, so the field is called `inn`). -/
structure Node where
  uid : Ident
  inn : List Ident
  out : List Ident
deriving DecidableEq, Repr

/-- `std::unordered_set::insert`: no-op when the element is present,
otherwise the element joins the iteration order at the end. -/
def setInsert (s : List Ident) (x : Ident) : List Ident :=
  if x ∈ s then s else s ++ [x]

/-- `std::unordered_set::erase`. -/
def setErase (s : List Ident) (x : Ident) : List Ident :=
  s.filter (fun y => y ≠ x)

/-- The node map of `Digraph<T>`: `std::map` from uid to node. -/
structure Digraph where
  nodes : List (Ident × Node)
deriving DecidableEq, Repr

def emptyDigraph : Digraph := ⟨[]⟩

/-- `nodes.find(uid)` (without the throw of `getNode`; the operations below
pattern-match on the result and throw where the source does). -/
def lookup (g : Digraph) (uid : Ident) : Option Node :=
  (g.nodes.find? (fun p => p.1 = uid)).map (fun p => p.2)

/-- `nodes[uid] = ...` on a fresh key: `std::map` keeps its entries sorted
by key, so the new pair is inserted at its ordered position (an existing
key would be overwritten, matching `operator[]`). -/
def mapInsert (m : List (Ident × Node)) (k : Ident) (v : Node) :
    List (Ident × Node) :=
  match m with
  | [] => [(k, v)]
  | (k', v') :: rest =>
    if k < k' then (k, v) :: (k', v') :: rest
    else if k = k' then (k, v) :: rest
    else (k', v') :: mapInsert rest k v

/-- In-place mutation of the node stored under key `k` through the map
iterator: the entry keeps its position, only the node changes. -/
def mapUpdate (m : List (Ident × Node)) (k : Ident) (f : Node → Node) :
    List (Ident × Node) :=
  match m with
  | [] => []
  | p :: rest =>
    (if p.1 = k then (p.1, f p.2) else p) :: mapUpdate rest k f

/-- `nodes.erase(itr)`: the entry with key `k` disappears. -/
def mapErase (m : List (Ident × Node)) (k : Ident) : List (Ident × Node) :=
  match m with
  | [] => []
  | p :: rest => if p.1 = k then mapErase rest k else p :: mapErase rest k

/-- `Digraph<T>::addNode`: insert a fresh node, or throw
`node_uniqueness_violation` when the uid already exists.  On the throwing
path the map has not been touched. -/
def addNode (g : Digraph) (uid : Ident) : Option DigraphError × Digraph :=
  match lookup g uid with
  | none => (none, ⟨mapInsert g.nodes uid ⟨uid, [], []⟩⟩)
  | some _ => (some (.node_uniqueness_violation uid), g)

/-- First cleanup loop of `Digraph<T>::deleteNode`: for each in-neighbour,
`getNode` it (throwing `node_not_found` if absent, with the mutations made
so far kept) and erase `uid` from its out-set. -/
def cleanupIn (uid : Ident) : List Ident → Digraph →
    Option DigraphError × Digraph
  | [], g => (none, g)
  | nb :: rest, g =>
    match lookup g nb with
    | none => (some (.node_not_found "deleteNode" nb), g)
    | some _ =>
      cleanupIn uid rest
        ⟨mapUpdate g.nodes nb (fun m => { m with out := setErase m.out uid })⟩

/-- Second cleanup loop of `Digraph<T>::deleteNode`: for each out-neighbour,
erase `uid` from its in-set. -/
def cleanupOut (uid : Ident) : List Ident → Digraph →
    Option DigraphError × Digraph
  | [], g => (none, g)
  | nb :: rest, g =>
    match lookup g nb with
    | none => (some (.node_not_found "deleteNode" nb), g)
    | some _ =>
      cleanupOut uid rest
        ⟨mapUpdate g.nodes nb (fun m => { m with inn := setErase m.inn uid })⟩

/-- `Digraph<T>::deleteNode`.  The first loop iterates over the node's
in-set (which it never mutates: it only touches out-sets); the second loop
iterates the node's out-set **as it stands after the first loop** (the
source reads it through the live iterator), which matters for self-loops;
finally the node's map entry is erased. -/
def deleteNode (g : Digraph) (uid : Ident) : Option DigraphError × Digraph :=
  match lookup g uid with
  | none => (some (.node_not_found "deleteNode" uid), g)
  | some n =>
    match cleanupIn uid n.inn g with
    | (some e, g1) => (some e, g1)
    | (none, g1) =>
      -- re-read the node: its out-set may have lost `uid` (self-loop)
      let n1 := (lookup g1 uid).getD n
      match cleanupOut uid n1.out g1 with
      | (some e, g2) => (some e, g2)
      | (none, g2) => (none, ⟨mapErase g2.nodes uid⟩)

/-- `Digraph<T>::addArc`: both `getNode` calls happen before either
insertion, so a missing endpoint throws with the map untouched. -/
def addArc (g : Digraph) (from_uid to_uid : Ident) :
    Option DigraphError × Digraph :=
  match lookup g from_uid with
  | none => (some (.node_not_found "addArc" from_uid), g)
  | some _ =>
    match lookup g to_uid with
    | none => (some (.node_not_found "addArc" to_uid), g)
    | some _ =>
      let m1 := mapUpdate g.nodes from_uid
        (fun m => { m with out := setInsert m.out to_uid })
      (none, ⟨mapUpdate m1 to_uid
        (fun m => { m with inn := setInsert m.inn from_uid })⟩)

/-- `Digraph<T>::deleteArc`: both `getNode` calls precede both erasures. -/
def deleteArc (g : Digraph) (from_uid to_uid : Ident) :
    Option DigraphError × Digraph :=
  match lookup g from_uid with
  | none => (some (.node_not_found "deleteArc" from_uid), g)
  | some _ =>
    match lookup g to_uid with
    | none => (some (.node_not_found "deleteArc" to_uid), g)
    | some _ =>
      let m1 := mapUpdate g.nodes from_uid
        (fun m => { m with out := setErase m.out to_uid })
      (none, ⟨mapUpdate m1 to_uid
        (fun m => { m with inn := setErase m.inn from_uid })⟩)

/-- `Digraph<T>::checkArc` (const: no state returned): membership of
`to_uid` in `from_uid`'s out-set; only `from_uid` is validated. -/
def checkArc (g : Digraph) (from_uid to_uid : Ident) :
    Except DigraphError Bool :=
  match lookup g from_uid with
  | none => .error (.node_not_found "checkArc" from_uid)
  | some n => .ok (decide (to_uid ∈ n.out))

/-- `Digraph<T>::outDegree`: `out.size()`. -/
def outDegree (g : Digraph) (uid : Ident) : Except DigraphError Nat :=
  match lookup g uid with
  | none => .error (.node_not_found "outDegree" uid)
  | some n => .ok n.out.length

/-- `Digraph<T>::inDegree`: `in.size()`. -/
def inDegree (g : Digraph) (uid : Ident) : Except DigraphError Nat :=
  match lookup g uid with
  | none => .error (.node_not_found "inDegree" uid)
  | some n => .ok n.inn.length

/-- Inner loop of `bfSearch`: push each not-yet-visited out-neighbour onto
`vec`, marking it visited. -/
def pushNeighbours : List Ident → List Ident → List Ident →
    List Ident × List Ident
  | [], visited, vec => (visited, vec)
  | nb :: rest, visited, vec =>
    if nb ∈ visited then pushNeighbours rest visited vec
    else pushNeighbours rest (visited ++ [nb]) (vec ++ [nb])

/-- The `for (index = 0; index != vec.size(); index++)` loop of `bfSearch`,
with an explicit fuel counter; `none` means the fuel ran out (never happens
with the fuel `bfSearch` supplies, see the termination theorem). -/
def bfsLoop (g : Digraph) : Nat → Nat → List Ident → List Ident →
    Option (Option DigraphError × List Ident)
  | 0, _, _, _ => none
  | fuel + 1, index, visited, vec =>
    if index = vec.length then some (none, vec)
    else
      let curr_uid := vec.getD index 0
      match lookup g curr_uid with
      | none => some (some (.node_not_found "bfSearch" curr_uid), vec)
      | some n =>
        let (visited', vec') := pushNeighbours n.out visited vec
        bfsLoop g fuel (index + 1) visited' vec'

/-- Total length of all out-sets: an upper bound on how many distinct
uids the search frontier can ever acquire beyond the root. -/
def outTotal (g : Digraph) : Nat :=
  (g.nodes.map (fun p => p.2.out.length)).sum

/-- `Digraph<T>::bfSearch`: `vec` is the caller-supplied output vector; the
root is pushed and marked visited before the loop runs. -/
def bfSearch (g : Digraph) (root_uid : Ident) (vec : List Ident) :
    Option (Option DigraphError × List Ident) :=
  bfsLoop g (vec.length + outTotal g + 2) 0
    (setInsert [] root_uid) (vec ++ [root_uid])

/-- The `for (auto out_neighbour : curr_node->second->out)` loop of the
`dfs` lambda; `rec` is the recursive call into the lambda itself. -/
def dfsLoop
    (rec : Ident → List Ident → List Ident →
      Option (Option DigraphError × List Ident × List Ident)) :
    List Ident → List Ident → List Ident →
    Option (Option DigraphError × List Ident × List Ident)
  | [], traversed, vec => some (none, traversed, vec)
  | nb :: rest, traversed, vec =>
    if nb ∈ traversed then dfsLoop rec rest traversed vec
    else
      match rec nb traversed vec with
      | none => none
      | some (some e, tr2, vec2) => some (some e, tr2, vec2)
      | some (none, tr2, vec2) => dfsLoop rec rest tr2 vec2

/-- The recursive lambda `dfs` of `Digraph<T>::dfSearch`: mark `curr_uid`
traversed, `getNode` it (throwing `node_not_found` if absent), recurse into
each untraversed out-neighbour, then append `curr_uid` to the output.
Returns `(error?, traversed, vec)`; `none` is fuel exhaustion (the fuel
bounds the recursion depth, which the traversed set keeps finite). -/
def dfsAux (g : Digraph) : Nat → Ident → List Ident → List Ident →
    Option (Option DigraphError × List Ident × List Ident)
  | 0, _, _, _ => none
  | fuel + 1, curr_uid, traversed, vec =>
    let tr1 := setInsert traversed curr_uid
    match lookup g curr_uid with
    | none => some (some (.node_not_found "dfSearch" curr_uid), tr1, vec)
    | some n =>
      match dfsLoop (dfsAux g fuel) n.out tr1 vec with
      | none => none
      | some (some e, tr2, vec2) => some (some e, tr2, vec2)
      | some (none, tr2, vec2) => some (none, tr2, vec2 ++ [curr_uid])

/-- `Digraph<T>::dfSearch`: `vec` is the caller-supplied output vector;
the traversed set starts empty and `dfs(root_uid)` is invoked. -/
def dfSearch (g : Digraph) (root_uid : Ident) (vec : List Ident) :
    Option (Option DigraphError × List Ident) :=
  match dfsAux g (g.nodes.length + 2) root_uid [] vec with
  | none => none
  | some (e, _, v) => some (e, v)

/-! ### Sample graphs used as concrete witnesses -/

/-- The diamond graph of §8 of the spec (A=1, B=2, C=3, D=4 with arcs
A→B, A→C, B→D, C→D), exactly as built by addNode/addArc calls. -/
def gDiamond : Digraph :=
  ⟨[(1, ⟨1, [], [2, 3]⟩), (2, ⟨2, [1], [4]⟩),
    (3, ⟨3, [1], [4]⟩), (4, ⟨4, [2, 3], []⟩)]⟩

/-- A two-node cycle 1→2→1 where node 1 also carries a self-loop, for
termination witnesses. -/
def gCycle : Digraph := ⟨[(1, ⟨1, [1, 2], [1, 2]⟩), (2, ⟨2, [1], [1]⟩)]⟩

/-- A single node 7 with no arcs. -/
def gSingle : Digraph := ⟨[(7, ⟨7, [], []⟩)]⟩

/-! ### Invariants (spec §3, invariants 1 and 2) -/

/-- Invariant 1: every out-reference points at an existing node that holds
the back-reference. -/
def Inv1 (g : Digraph) : Prop :=
  ∀ a na, lookup g a = some na → ∀ x ∈ na.out,
    ∃ nx, lookup g x = some nx ∧ a ∈ nx.inn

/-- Invariant 2: every in-reference points at an existing node that holds
the forward reference. -/
def Inv2 (g : Digraph) : Prop :=
  ∀ a na, lookup g a = some na → ∀ y ∈ na.inn,
    ∃ ny, lookup g y = some ny ∧ a ∈ ny.out

/-- Decidable, entry-list form of invariant 1. -/
def Inv1L (g : Digraph) : Prop :=
  ∀ p ∈ g.nodes, ∀ x ∈ p.2.out, ∃ q ∈ g.nodes, q.1 = x ∧ p.1 ∈ q.2.inn

/-- Decidable, entry-list form of invariant 2. -/
def Inv2L (g : Digraph) : Prop :=
  ∀ p ∈ g.nodes, ∀ y ∈ p.2.inn, ∃ q ∈ g.nodes, q.1 = y ∧ p.1 ∈ q.2.out

/-- The node map has no duplicate keys (spec §3, invariant 4). -/
def NodupKeys (g : Digraph) : Prop := (g.nodes.map (fun p => p.1)).Nodup

instance (g : Digraph) : Decidable (Inv1L g) := by
  unfold Inv1L; infer_instance

instance (g : Digraph) : Decidable (Inv2L g) := by
  unfold Inv2L; infer_instance

instance (g : Digraph) : Decidable (NodupKeys g) := by
  unfold NodupKeys; infer_instance

/-- Every out-reference of every stored node resolves via `lookup`
(consequence of invariant 1 that the traversals rely on). -/
def OutClosed (g : Digraph) : Prop :=
  ∀ p ∈ g.nodes, ∀ x ∈ p.2.out, (lookup g x).isSome

instance (g : Digraph) : Decidable (OutClosed g) := by
  unfold OutClosed; infer_instance

/-! ### Unordered-set lemmas -/

theorem mem_setInsert {s : List Ident} {x y : Ident} :
    x ∈ setInsert s y ↔ x = y ∨ x ∈ s := by
  unfold setInsert
  split
  · constructor
    · exact fun h => Or.inr h
    · rintro (rfl | h) <;> assumption
  · simp [or_comm]

theorem setInsert_nodup {s : List Ident} {y : Ident} (h : s.Nodup) :
    (setInsert s y).Nodup := by
  unfold setInsert
  split
  · exact h
  · next hy => simp [List.nodup_append, h, hy]

theorem mem_setErase {s : List Ident} {x y : Ident} :
    x ∈ setErase s y ↔ x ∈ s ∧ x ≠ y := by
  simp [setErase]

theorem setErase_idem (s : List Ident) (y : Ident) :
    setErase (setErase s y) y = setErase s y := by
  unfold setErase
  rw [List.filter_filter]
  exact List.filter_congr (by intro a _; simp)

theorem setInsert_of_mem {s : List Ident} {y : Ident} (h : y ∈ s) :
    setInsert s y = s := by
  simp [setInsert, h]

theorem setInsert_eq_append {s : List Ident} {y : Ident} (h : y ∉ s) :
    setInsert s y = s ++ [y] := by
  simp [setInsert, h]

theorem setErase_of_not_mem {s : List Ident} {y : Ident} (h : y ∉ s) :
    setErase s y = s := by
  unfold setErase
  refine List.filter_eq_self.mpr (fun a ha => ?_)
  simp only [ne_eq, decide_not, Bool.not_eq_eq_eq_not, Bool.not_true,
    decide_eq_false_iff_not]
  rintro rfl
  exact h ha

/-! ### Map-lookup lemmas -/

theorem lookup_nil (k : Ident) : lookup ⟨[]⟩ k = none := rfl

theorem lookup_cons (p : Ident × Node) (rest : List (Ident × Node))
    (k : Ident) :
    lookup ⟨p :: rest⟩ k =
      if p.1 = k then some p.2 else lookup ⟨rest⟩ k := by
  unfold lookup
  by_cases h : p.1 = k
  · rw [List.find?_cons_of_pos _ (by simpa using h), if_pos h]
    rfl
  · rw [List.find?_cons_of_neg _ (by simpa using h), if_neg h]

theorem lookup_mapUpdate (m : List (Ident × Node)) (k k' : Ident)
    (f : Node → Node) :
    lookup ⟨mapUpdate m k f⟩ k' =
      if k' = k then (lookup ⟨m⟩ k').map f else lookup ⟨m⟩ k' := by
  induction m with
  | nil => simp [lookup_nil, mapUpdate]
  | cons p rest ih =>
    have h1 : mapUpdate (p :: rest) k f =
        (if p.1 = k then (p.1, f p.2) else p) :: mapUpdate rest k f := rfl
    rw [h1, lookup_cons, lookup_cons]
    by_cases hpk : p.1 = k
    · rw [if_pos hpk]
      by_cases hk' : k' = k
      · subst hk'
        rw [if_pos (show (p.1, f p.2).1 = k' from hpk), if_pos rfl,
          if_pos hpk]
        rfl
      · have h3 : ¬ p.1 = k' := by rw [hpk]; exact fun h => hk' h.symm
        rw [if_neg (show ¬ (p.1, f p.2).1 = k' from h3), if_neg h3, ih,
          if_neg hk']
    · rw [if_neg hpk]
      by_cases hpk' : p.1 = k'
      · have hk' : ¬ k' = k := fun h => hpk (h ▸ hpk')
        rw [if_pos hpk', if_pos hpk', if_neg hk']
      · rw [if_neg hpk', if_neg hpk', ih]

theorem lookup_mapInsert (m : List (Ident × Node)) (k k' : Ident) (v : Node) :
    lookup ⟨mapInsert m k v⟩ k' =
      if k' = k then some v else lookup ⟨m⟩ k' := by
  induction m with
  | nil =>
    rw [show mapInsert [] k v = [(k, v)] from rfl, lookup_cons]
    by_cases h : k' = k
    · rw [if_pos (show (k, v).1 = k' from h.symm), if_pos h]
    · rw [if_neg (show ¬ (k, v).1 = k' from fun hh => h hh.symm), if_neg h,
        lookup_nil]
  | cons p rest ih =>
    rw [show mapInsert (p :: rest) k v =
      (if k < p.1 then (k, v) :: p :: rest
       else if k = p.1 then (k, v) :: rest
       else p :: mapInsert rest k v) from rfl]
    by_cases hlt : k < p.1
    · rw [if_pos hlt, lookup_cons]
      by_cases h : k' = k
      · rw [if_pos (show (k, v).1 = k' from h.symm), if_pos h]
      · rw [if_neg (show ¬ (k, v).1 = k' from fun hh => h hh.symm), if_neg h]
    · rw [if_neg hlt]
      by_cases heq : k = p.1
      · rw [if_pos heq, lookup_cons, lookup_cons]
        by_cases h : k' = k
        · rw [if_pos (show (k, v).1 = k' from h.symm), if_pos h]
        · have h2 : ¬ (p.1 = k') := fun hh => h (heq.trans hh).symm
          rw [if_neg (show ¬ (k, v).1 = k' from fun hh => h hh.symm),
            if_neg h, if_neg h2]
      · rw [if_neg heq, lookup_cons, lookup_cons]
        by_cases hpk' : p.1 = k'
        · rw [if_pos hpk', if_pos hpk',
            if_neg (fun hh : k' = k => heq (hh ▸ hpk').symm)]
        · rw [if_neg hpk', if_neg hpk', ih]

theorem lookup_mapErase (m : List (Ident × Node)) (k k' : Ident) :
    lookup ⟨mapErase m k⟩ k' =
      if k' = k then none else lookup ⟨m⟩ k' := by
  induction m with
  | nil => simp [lookup_nil, mapErase]
  | cons p rest ih =>
    rw [show mapErase (p :: rest) k =
      (if p.1 = k then mapErase rest k else p :: mapErase rest k) from rfl]
    by_cases hpk : p.1 = k
    · rw [if_pos hpk, ih, lookup_cons]
      by_cases h : k' = k
      · rw [if_pos h, if_pos h]
      · have hpk' : ¬ (p.1 = k') := by rw [hpk]; exact fun hh => h hh.symm
        rw [if_neg h, if_neg h, if_neg hpk']
    · rw [if_neg hpk, lookup_cons, lookup_cons, ih]
      by_cases hpk' : p.1 = k'
      · have h : ¬ (k' = k) := fun hh => hpk (hh ▸ hpk')
        rw [if_pos hpk', if_pos hpk', if_neg h]
      · rw [if_neg hpk', if_neg hpk']

/-- A successful lookup returns an entry of the node list, keyed by the
looked-up uid. -/
theorem lookup_mem {g : Digraph} {k : Ident} {n : Node}
    (h : lookup g k = some n) : (k, n) ∈ g.nodes := by
  unfold lookup at h
  cases hf : g.nodes.find? (fun p => p.1 = k) with
  | none => rw [hf] at h; simp at h
  | some p =>
    rw [hf] at h
    have hm := List.mem_of_find?_eq_some hf
    have hp := List.find?_some hf
    simp only [decide_eq_true_eq] at hp
    have h2 : p.2 = n := by simpa using h
    have h3 : (k, n) = p := Prod.ext_iff.mpr ⟨hp.symm, h2.symm⟩
    rw [h3]
    exact hm

/-- With duplicate-free keys, every entry of the node list is what `lookup`
returns for its key. -/
theorem lookup_of_mem_nodupKeys {g : Digraph} (hnd : NodupKeys g)
    {k : Ident} {n : Node} (h : (k, n) ∈ g.nodes) : lookup g k = some n := by
  unfold NodupKeys at hnd
  have : ∀ (l : List (Ident × Node)), (l.map (fun p => p.1)).Nodup →
      (k, n) ∈ l → lookup ⟨l⟩ k = some n := by
    intro l
    induction l with
    | nil => intro _ h'; simp at h'
    | cons p rest ih =>
      intro hnd' h'
      simp only [List.map_cons, List.nodup_cons] at hnd'
      rw [lookup_cons]
      rcases List.mem_cons.mp h' with h' | h'
      · rw [← h']
        rw [if_pos rfl]
      · have hne : ¬ (p.1 = k) := by
          intro hh
          exact hnd'.1 (hh ▸ (List.mem_map.mpr ⟨(k, n), h', rfl⟩))
        rw [if_neg hne]
        exact ih hnd'.2 h'
  exact this g.nodes hnd h

/-! ### Bridges between list-level and lookup-level properties -/

theorem outClosed_lookup {g : Digraph} (hc : OutClosed g) {a : Ident}
    {n : Node} (h : lookup g a = some n) :
    ∀ x ∈ n.out, (lookup g x).isSome :=
  fun x hx => hc (a, n) (lookup_mem h) x hx

theorem inv1_of_list {g : Digraph} (hnd : NodupKeys g) (h : Inv1L g) :
    Inv1 g := by
  intro a na hna x hx
  obtain ⟨q, hq, hq1, hq2⟩ := h (a, na) (lookup_mem hna) x hx
  exact ⟨q.2, by
    have := lookup_of_mem_nodupKeys hnd (show (q.1, q.2) ∈ g.nodes from hq)
    rwa [hq1] at this, hq2⟩

theorem inv2_of_list {g : Digraph} (hnd : NodupKeys g) (h : Inv2L g) :
    Inv2 g := by
  intro a na hna y hy
  obtain ⟨q, hq, hq1, hq2⟩ := h (a, na) (lookup_mem hna) y hy
  exact ⟨q.2, by
    have := lookup_of_mem_nodupKeys hnd (show (q.1, q.2) ∈ g.nodes from hq)
    rwa [hq1] at this, hq2⟩

/-! ### Characterizations of the mutating operations -/

theorem addNode_missing {g : Digraph} {uid : Ident}
    (h : lookup g uid = none) :
    addNode g uid = (none, ⟨mapInsert g.nodes uid ⟨uid, [], []⟩⟩) := by
  simp [addNode, h]

theorem addNode_dup {g : Digraph} {uid : Ident} {n : Node}
    (h : lookup g uid = some n) :
    addNode g uid = (some (.node_uniqueness_violation uid), g) := by
  simp [addNode, h]

/-- The pointwise effect of `addArc from to` on the node stored under `k`. -/
def arcInsEffect (a b k : Ident) (m : Node) : Node :=
  let m1 := if k = a then { m with out := setInsert m.out b } else m
  if k = b then { m1 with inn := setInsert m1.inn a } else m1

theorem addArc_some {g : Digraph} {a b : Ident} {na nb : Node}
    (ha : lookup g a = some na) (hb : lookup g b = some nb) :
    addArc g a b = (none,
      ⟨mapUpdate (mapUpdate g.nodes a
          (fun m => { m with out := setInsert m.out b })) b
        (fun m => { m with inn := setInsert m.inn a })⟩) := by
  simp [addArc, ha, hb]

theorem addArc_lookup {g : Digraph} {a b : Ident} {na nb : Node}
    (ha : lookup g a = some na) (hb : lookup g b = some nb) (k : Ident) :
    lookup (addArc g a b).2 k = (lookup g k).map (arcInsEffect a b k) := by
  rw [addArc_some ha hb]
  show lookup ⟨mapUpdate (mapUpdate g.nodes a _) b _⟩ k = _
  rw [show (lookup ⟨mapUpdate (mapUpdate g.nodes a
      (fun m => { m with out := setInsert m.out b })) b
      (fun m => { m with inn := setInsert m.inn a })⟩ k) =
      (if k = b
        then (lookup ⟨mapUpdate g.nodes a
          (fun m => { m with out := setInsert m.out b })⟩ k).map
            (fun m => { m with inn := setInsert m.inn a })
        else lookup ⟨mapUpdate g.nodes a
          (fun m => { m with out := setInsert m.out b })⟩ k)
    from lookup_mapUpdate _ b k _]
  rw [lookup_mapUpdate g.nodes a k]
  by_cases hkb : k = b <;> by_cases hka : k = a <;>
    cases ho : lookup g k <;>
    simp [hkb, hka, arcInsEffect] <;> split <;> simp

/-- The pointwise effect of `deleteArc from to` on the node under `k`. -/
def arcDelEffect (a b k : Ident) (m : Node) : Node :=
  let m1 := if k = a then { m with out := setErase m.out b } else m
  if k = b then { m1 with inn := setErase m1.inn a } else m1

theorem deleteArc_some {g : Digraph} {a b : Ident} {na nb : Node}
    (ha : lookup g a = some na) (hb : lookup g b = some nb) :
    deleteArc g a b = (none,
      ⟨mapUpdate (mapUpdate g.nodes a
          (fun m => { m with out := setErase m.out b })) b
        (fun m => { m with inn := setErase m.inn a })⟩) := by
  simp [deleteArc, ha, hb]

theorem deleteArc_lookup {g : Digraph} {a b : Ident} {na nb : Node}
    (ha : lookup g a = some na) (hb : lookup g b = some nb) (k : Ident) :
    lookup (deleteArc g a b).2 k = (lookup g k).map (arcDelEffect a b k) := by
  rw [deleteArc_some ha hb]
  show lookup ⟨mapUpdate (mapUpdate g.nodes a _) b _⟩ k = _
  rw [show (lookup ⟨mapUpdate (mapUpdate g.nodes a
      (fun m => { m with out := setErase m.out b })) b
      (fun m => { m with inn := setErase m.inn a })⟩ k) =
      (if k = b
        then (lookup ⟨mapUpdate g.nodes a
          (fun m => { m with out := setErase m.out b })⟩ k).map
            (fun m => { m with inn := setErase m.inn a })
        else lookup ⟨mapUpdate g.nodes a
          (fun m => { m with out := setErase m.out b })⟩ k)
    from lookup_mapUpdate _ b k _]
  rw [lookup_mapUpdate g.nodes a k]
  by_cases hkb : k = b <;> by_cases hka : k = a <;>
    cases ho : lookup g k <;>
    simp [hkb, hka, arcDelEffect] <;> split <;> simp

theorem cleanupIn_spec (uid : Ident) : ∀ (lst : List Ident) (g : Digraph),
    (∀ nb ∈ lst, (lookup g nb).isSome) →
    ∃ g', cleanupIn uid lst g = (none, g') ∧
      ∀ k, lookup g' k = if k ∈ lst
        then (lookup g k).map (fun m => { m with out := setErase m.out uid })
        else lookup g k := by
  intro lst
  induction lst with
  | nil => exact fun g _ => ⟨g, rfl, fun k => by simp⟩
  | cons nb rest ih =>
    intro g hall
    obtain ⟨n, hn⟩ := Option.isSome_iff_exists.mp (hall nb (by simp))
    have hstep : cleanupIn uid (nb :: rest) g =
        cleanupIn uid rest ⟨mapUpdate g.nodes nb
          (fun m => { m with out := setErase m.out uid })⟩ := by
      simp [cleanupIn, hn]
    have hall1 : ∀ nb' ∈ rest,
        (lookup (⟨mapUpdate g.nodes nb
          (fun m => { m with out := setErase m.out uid })⟩ : Digraph)
          nb').isSome := by
      intro nb' h'
      rw [lookup_mapUpdate]
      have := hall nb' (by simp [h'])
      split <;> simp_all
    obtain ⟨g', hrun, hchar⟩ := ih _ hall1
    refine ⟨g', by rw [hstep]; exact hrun, fun k => ?_⟩
    rw [hchar k, lookup_mapUpdate]
    by_cases hk1 : k ∈ rest <;> by_cases hk2 : k = nb <;>
      cases ho : lookup g k <;>
      simp [hk1, hk2, ho, setErase_idem]

theorem cleanupOut_spec (uid : Ident) : ∀ (lst : List Ident) (g : Digraph),
    (∀ nb ∈ lst, (lookup g nb).isSome) →
    ∃ g', cleanupOut uid lst g = (none, g') ∧
      ∀ k, lookup g' k = if k ∈ lst
        then (lookup g k).map (fun m => { m with inn := setErase m.inn uid })
        else lookup g k := by
  intro lst
  induction lst with
  | nil => exact fun g _ => ⟨g, rfl, fun k => by simp⟩
  | cons nb rest ih =>
    intro g hall
    obtain ⟨n, hn⟩ := Option.isSome_iff_exists.mp (hall nb (by simp))
    have hstep : cleanupOut uid (nb :: rest) g =
        cleanupOut uid rest ⟨mapUpdate g.nodes nb
          (fun m => { m with inn := setErase m.inn uid })⟩ := by
      simp [cleanupOut, hn]
    have hall1 : ∀ nb' ∈ rest,
        (lookup (⟨mapUpdate g.nodes nb
          (fun m => { m with inn := setErase m.inn uid })⟩ : Digraph)
          nb').isSome := by
      intro nb' h'
      rw [lookup_mapUpdate]
      have := hall nb' (by simp [h'])
      split <;> simp_all
    obtain ⟨g', hrun, hchar⟩ := ih _ hall1
    refine ⟨g', by rw [hstep]; exact hrun, fun k => ?_⟩
    rw [hchar k, lookup_mapUpdate]
    by_cases hk1 : k ∈ rest <;> by_cases hk2 : k = nb <;>
      cases ho : lookup g k <;>
      simp [hk1, hk2, ho, setErase_idem]

/-- The pointwise effect of `deleteNode d` on a surviving node `k`, where
`nd` is the deleted node's record at call time. -/
def delNodeEffect (d : Ident) (nd : Node) (k : Ident) (m : Node) : Node :=
  ⟨m.uid,
   if k ∈ nd.out then setErase m.inn d else m.inn,
   if k ∈ nd.inn then setErase m.out d else m.out⟩

/-- Characterization of a successful `deleteNode`: the node disappears and
every other node loses its references to it (given that the deleted node's
adjacency references all resolve, which invariants 1–2 guarantee). -/
theorem deleteNode_spec {g : Digraph} {d : Ident} {nd : Node}
    (h : lookup g d = some nd)
    (hin : ∀ y ∈ nd.inn, (lookup g y).isSome)
    (hout : ∀ x ∈ nd.out, (lookup g x).isSome) :
    ∃ g', deleteNode g d = (none, g') ∧ lookup g' d = none ∧
      ∀ k, k ≠ d →
        lookup g' k = (lookup g k).map (delNodeEffect d nd k) := by
  obtain ⟨g1, hrun1, hchar1⟩ := cleanupIn_spec d nd.inn g hin
  -- the deleted node as re-read through the live iterator after phase 1
  have hd1 : lookup g1 d =
      some (if d ∈ nd.inn
        then { nd with out := setErase nd.out d } else nd) := by
    rw [hchar1 d]
    split <;> simp_all
  have hout1 : ∀ x ∈ (if d ∈ nd.inn
      then { nd with out := setErase nd.out d } else nd).out,
      (lookup g1 x).isSome := by
    intro x hx
    have hx' : x ∈ nd.out := by
      rcases em (d ∈ nd.inn) with hmem | hmem
      · rw [if_pos hmem] at hx
        exact (mem_setErase.mp hx).1
      · rwa [if_neg hmem] at hx
    have := hout x hx'
    rw [hchar1 x]
    split <;> simp_all
  obtain ⟨g2, hrun2, hchar2⟩ := cleanupOut_spec d _ g1 hout1
  refine ⟨⟨mapErase g2.nodes d⟩, ?_, ?_, ?_⟩
  · rw [show deleteNode g d =
      (match cleanupIn d nd.inn g with
       | (some e, g1) => (some e, g1)
       | (none, g1) =>
         let n1 := (lookup g1 d).getD nd
         match cleanupOut d n1.out g1 with
         | (some e, g2) => (some e, g2)
         | (none, g2) => (none, ⟨mapErase g2.nodes d⟩)) from by
      simp [deleteNode, h]]
    rw [hrun1]
    simp only [hd1, Option.getD_some]
    rw [hrun2]
  · rw [lookup_mapErase, if_pos rfl]
  · intro k hk
    rw [lookup_mapErase, if_neg hk, hchar2 k, hchar1 k]
    have hmem : (k ∈ (if d ∈ nd.inn
        then { nd with out := setErase nd.out d } else nd).out) ↔
        k ∈ nd.out := by
      rcases em (d ∈ nd.inn) with hmem | hmem
      · rw [if_pos hmem]
        simp only [mem_setErase]
        exact ⟨fun hh => hh.1, fun hh => ⟨hh, hk⟩⟩
      · rw [if_neg hmem]
    by_cases h1 : k ∈ nd.out <;> by_cases h2 : k ∈ nd.inn <;>
      cases ho : lookup g k <;>
      simp [h1, h2, hmem, delNodeEffect]

/-! ### Effect projections -/

theorem arcInsEffect_uid (a b k : Ident) (m : Node) :
    (arcInsEffect a b k m).uid = m.uid := by
  unfold arcInsEffect
  by_cases h1 : k = a <;> by_cases h2 : k = b <;> by_cases h3 : a = b <;>
    simp_all

theorem arcInsEffect_out (a b k : Ident) (m : Node) :
    (arcInsEffect a b k m).out =
      if k = a then setInsert m.out b else m.out := by
  unfold arcInsEffect
  by_cases h1 : k = a <;> by_cases h2 : k = b <;> by_cases h3 : a = b <;>
    simp_all

theorem arcInsEffect_inn (a b k : Ident) (m : Node) :
    (arcInsEffect a b k m).inn =
      if k = b then setInsert m.inn a else m.inn := by
  unfold arcInsEffect
  by_cases h1 : k = a <;> by_cases h2 : k = b <;> by_cases h3 : a = b <;>
    simp_all

theorem arcDelEffect_out (a b k : Ident) (m : Node) :
    (arcDelEffect a b k m).out =
      if k = a then setErase m.out b else m.out := by
  unfold arcDelEffect
  by_cases h1 : k = a <;> by_cases h2 : k = b <;> by_cases h3 : a = b <;>
    simp_all

theorem arcDelEffect_inn (a b k : Ident) (m : Node) :
    (arcDelEffect a b k m).inn =
      if k = b then setErase m.inn a else m.inn := by
  unfold arcDelEffect
  by_cases h1 : k = a <;> by_cases h2 : k = b <;> by_cases h3 : a = b <;>
    simp_all

theorem delNodeEffect_out (d : Ident) (nd : Node) (k : Ident) (m : Node) :
    (delNodeEffect d nd k m).out =
      if k ∈ nd.inn then setErase m.out d else m.out := rfl

theorem delNodeEffect_inn (d : Ident) (nd : Node) (k : Ident) (m : Node) :
    (delNodeEffect d nd k m).inn =
      if k ∈ nd.out then setErase m.inn d else m.inn := rfl

/-! ### Invariant preservation -/

theorem emptyDigraph_inv : Inv1 emptyDigraph ∧ Inv2 emptyDigraph := by
  constructor <;> intro a na hna <;> simp [lookup, emptyDigraph] at hna

theorem inv_addNode {g : Digraph} {u : Ident} {g' : Digraph}
    (h1 : Inv1 g) (h2 : Inv2 g) (hrun : addNode g u = (none, g')) :
    Inv1 g' ∧ Inv2 g' := by
  have hu : lookup g u = none := by
    cases hu : lookup g u with
    | none => rfl
    | some n => rw [addNode_dup hu] at hrun; simp at hrun
  rw [addNode_missing hu] at hrun
  have hg' : g' = ⟨mapInsert g.nodes u ⟨u, [], []⟩⟩ :=
    ((Prod.mk.injEq _ _ _ _).mp hrun).2.symm
  have hchar : ∀ k, lookup g' k =
      if k = u then some ⟨u, [], []⟩ else lookup g k := by
    intro k; rw [hg']; exact lookup_mapInsert g.nodes u k _
  constructor
  · intro a na hna x hx
    rw [hchar a] at hna
    by_cases hau : a = u
    · rw [if_pos hau] at hna
      cases hna
      simp at hx
    · rw [if_neg hau] at hna
      obtain ⟨nx, hnx, hmem⟩ := h1 a na hna x hx
      have hxu : ¬ x = u := fun hh => by rw [hh, hu] at hnx; cases hnx
      exact ⟨nx, by rw [hchar x, if_neg hxu]; exact hnx, hmem⟩
  · intro a na hna y hy
    rw [hchar a] at hna
    by_cases hau : a = u
    · rw [if_pos hau] at hna
      cases hna
      simp at hy
    · rw [if_neg hau] at hna
      obtain ⟨ny, hny, hmem⟩ := h2 a na hna y hy
      have hyu : ¬ y = u := fun hh => by rw [hh, hu] at hny; cases hny
      exact ⟨ny, by rw [hchar y, if_neg hyu]; exact hny, hmem⟩

theorem inv_addArc {g : Digraph} {a b : Ident} {g' : Digraph}
    (h1 : Inv1 g) (h2 : Inv2 g) (hrun : addArc g a b = (none, g')) :
    Inv1 g' ∧ Inv2 g' := by
  cases ha : lookup g a with
  | none => rw [show addArc g a b = (some (.node_not_found "addArc" a), g)
      from by simp [addArc, ha]] at hrun; simp at hrun
  | some na =>
  cases hb : lookup g b with
  | none => rw [show addArc g a b = (some (.node_not_found "addArc" b), g)
      from by simp [addArc, ha, hb]] at hrun; simp at hrun
  | some nb =>
  have hg' : g' = (addArc g a b).2 := by rw [hrun]
  have hchar : ∀ k, lookup g' k =
      (lookup g k).map (arcInsEffect a b k) := by
    intro k; rw [hg']; exact addArc_lookup ha hb k
  constructor
  · intro k nk' hk' x hx
    rw [hchar k] at hk'
    obtain ⟨nk, hnk, hef⟩ := Option.map_eq_some'.mp hk'
    rw [hef.symm, arcInsEffect_out] at hx
    have hcases : x ∈ nk.out ∨ (k = a ∧ x = b) := by
      by_cases hka : k = a
      · rw [if_pos hka, mem_setInsert] at hx
        rcases hx with hx | hx
        · exact Or.inr ⟨hka, hx⟩
        · exact Or.inl hx
      · rw [if_neg hka] at hx
        exact Or.inl hx
    rcases hcases with hx' | ⟨hka, hxb⟩
    · obtain ⟨nx, hnx, hmem⟩ := h1 k nk hnk x hx'
      refine ⟨arcInsEffect a b x nx, ?_, ?_⟩
      · rw [hchar x, hnx]; rfl
      · rw [arcInsEffect_inn]
        split
        · exact mem_setInsert.mpr (Or.inr hmem)
        · exact hmem
    · refine ⟨arcInsEffect a b x nb, ?_, ?_⟩
      · rw [hchar x, hxb, hb]; rfl
      · rw [arcInsEffect_inn, if_pos hxb, hka]
        exact mem_setInsert.mpr (Or.inl rfl)
  · intro k nk' hk' y hy
    rw [hchar k] at hk'
    obtain ⟨nk, hnk, hef⟩ := Option.map_eq_some'.mp hk'
    rw [hef.symm, arcInsEffect_inn] at hy
    have hcases : y ∈ nk.inn ∨ (k = b ∧ y = a) := by
      by_cases hkb : k = b
      · rw [if_pos hkb, mem_setInsert] at hy
        rcases hy with hy | hy
        · exact Or.inr ⟨hkb, hy⟩
        · exact Or.inl hy
      · rw [if_neg hkb] at hy
        exact Or.inl hy
    rcases hcases with hy' | ⟨hkb, hya⟩
    · obtain ⟨ny, hny, hmem⟩ := h2 k nk hnk y hy'
      refine ⟨arcInsEffect a b y ny, ?_, ?_⟩
      · rw [hchar y, hny]; rfl
      · rw [arcInsEffect_out]
        split
        · exact mem_setInsert.mpr (Or.inr hmem)
        · exact hmem
    · refine ⟨arcInsEffect a b y na, ?_, ?_⟩
      · rw [hchar y, hya, ha]; rfl
      · rw [arcInsEffect_out, if_pos hya, hkb]
        exact mem_setInsert.mpr (Or.inl rfl)

theorem inv_deleteArc {g : Digraph} {a b : Ident} {g' : Digraph}
    (h1 : Inv1 g) (h2 : Inv2 g) (hrun : deleteArc g a b = (none, g')) :
    Inv1 g' ∧ Inv2 g' := by
  cases ha : lookup g a with
  | none => rw [show deleteArc g a b = (some (.node_not_found "deleteArc" a), g)
      from by simp [deleteArc, ha]] at hrun; simp at hrun
  | some na =>
  cases hb : lookup g b with
  | none => rw [show deleteArc g a b = (some (.node_not_found "deleteArc" b), g)
      from by simp [deleteArc, ha, hb]] at hrun; simp at hrun
  | some nb =>
  have hchar : ∀ k, lookup g' k =
      (lookup g k).map (arcDelEffect a b k) := by
    intro k
    rw [show g' = (deleteArc g a b).2 from by rw [hrun]]
    exact deleteArc_lookup ha hb k
  constructor
  · intro k nk' hk' x hx
    rw [hchar k] at hk'
    obtain ⟨nk, hnk, hef⟩ := Option.map_eq_some'.mp hk'
    rw [hef.symm, arcDelEffect_out] at hx
    have hx' : x ∈ nk.out ∧ ¬ (k = a ∧ x = b) := by
      by_cases hka : k = a
      · rw [if_pos hka, mem_setErase] at hx
        exact ⟨hx.1, fun hh => hx.2 hh.2⟩
      · rw [if_neg hka] at hx
        exact ⟨hx, fun hh => hka hh.1⟩
    obtain ⟨nx, hnx, hmem⟩ := h1 k nk hnk x hx'.1
    refine ⟨arcDelEffect a b x nx, by rw [hchar x, hnx]; rfl, ?_⟩
    rw [arcDelEffect_inn]
    by_cases hxb : x = b
    · rw [if_pos hxb, mem_setErase]
      exact ⟨hmem, fun hh => hx'.2 ⟨hh, hxb⟩⟩
    · rwa [if_neg hxb]
  · intro k nk' hk' y hy
    rw [hchar k] at hk'
    obtain ⟨nk, hnk, hef⟩ := Option.map_eq_some'.mp hk'
    rw [hef.symm, arcDelEffect_inn] at hy
    have hy' : y ∈ nk.inn ∧ ¬ (k = b ∧ y = a) := by
      by_cases hkb : k = b
      · rw [if_pos hkb, mem_setErase] at hy
        exact ⟨hy.1, fun hh => hy.2 hh.2⟩
      · rw [if_neg hkb] at hy
        exact ⟨hy, fun hh => hkb hh.1⟩
    obtain ⟨ny, hny, hmem⟩ := h2 k nk hnk y hy'.1
    refine ⟨arcDelEffect a b y ny, by rw [hchar y, hny]; rfl, ?_⟩
    rw [arcDelEffect_out]
    by_cases hya : y = a
    · rw [if_pos hya, mem_setErase]
      exact ⟨hmem, fun hh => hy'.2 ⟨hh, hya⟩⟩
    · rwa [if_neg hya]

theorem inv_deleteNode {g : Digraph} {d : Ident} {g' : Digraph}
    (h1 : Inv1 g) (h2 : Inv2 g) (hrun : deleteNode g d = (none, g')) :
    Inv1 g' ∧ Inv2 g' := by
  cases hd : lookup g d with
  | none => rw [show deleteNode g d = (some (.node_not_found "deleteNode" d), g)
      from by simp [deleteNode, hd]] at hrun; simp at hrun
  | some nd =>
  have hin : ∀ y ∈ nd.inn, (lookup g y).isSome := by
    intro y hy
    obtain ⟨ny, hny, _⟩ := h2 d nd hd y hy
    simp [hny]
  have hout : ∀ x ∈ nd.out, (lookup g x).isSome := by
    intro x hx
    obtain ⟨nx, hnx, _⟩ := h1 d nd hd x hx
    simp [hnx]
  obtain ⟨g'', hrun'', hd'', hchar⟩ := deleteNode_spec hd hin hout
  have hg : g' = g'' := by rw [hrun''] at hrun; exact ((Prod.mk.injEq _ _ _ _).mp hrun).2.symm
  subst hg
  constructor
  · intro k nk' hk' x hx
    have hkd : k ≠ d := by
      intro hh; rw [hh, hd''] at hk'; cases hk'
    rw [hchar k hkd] at hk'
    obtain ⟨nk, hnk, hef⟩ := Option.map_eq_some'.mp hk'
    rw [hef.symm, delNodeEffect_out] at hx
    have hx' : x ∈ nk.out ∧ x ≠ d := by
      by_cases hki : k ∈ nd.inn
      · rw [if_pos hki, mem_setErase] at hx
        exact hx
      · rw [if_neg hki] at hx
        refine ⟨hx, fun hh => ?_⟩
        obtain ⟨nx, hnx, hmem⟩ := h1 k nk hnk x hx
        rw [hh, hd] at hnx
        cases hnx
        exact hki hmem
    obtain ⟨nx, hnx, hmem⟩ := h1 k nk hnk x hx'.1
    refine ⟨delNodeEffect d nd x nx, by rw [hchar x hx'.2, hnx]; rfl, ?_⟩
    rw [delNodeEffect_inn]
    split
    · rw [mem_setErase]
      exact ⟨hmem, hkd⟩
    · exact hmem
  · intro k nk' hk' y hy
    have hkd : k ≠ d := by
      intro hh; rw [hh, hd''] at hk'; cases hk'
    rw [hchar k hkd] at hk'
    obtain ⟨nk, hnk, hef⟩ := Option.map_eq_some'.mp hk'
    rw [hef.symm, delNodeEffect_inn] at hy
    have hy' : y ∈ nk.inn ∧ y ≠ d := by
      by_cases hko : k ∈ nd.out
      · rw [if_pos hko, mem_setErase] at hy
        exact hy
      · rw [if_neg hko] at hy
        refine ⟨hy, fun hh => ?_⟩
        obtain ⟨ny, hny, hmem⟩ := h2 k nk hnk y hy
        rw [hh, hd] at hny
        cases hny
        exact hko hmem
    obtain ⟨ny, hny, hmem⟩ := h2 k nk hnk y hy'.1
    refine ⟨delNodeEffect d nd y ny, by rw [hchar y hy'.2, hny]; rfl, ?_⟩
    rw [delNodeEffect_out]
    split
    · rw [mem_setErase]
      exact ⟨hmem, hkd⟩
    · exact hmem

/-! ### Operation sequences (for the whole-lifecycle invariant claim) -/

/-- One mutating call of the public Digraph API. -/
inductive Op where
  | addNode (uid : Ident)
  | deleteNode (uid : Ident)
  | addArc (from_uid to_uid : Ident)
  | deleteArc (from_uid to_uid : Ident)
deriving DecidableEq, Repr

def runOp (g : Digraph) : Op → Option DigraphError × Digraph
  | .addNode u => addNode g u
  | .deleteNode u => deleteNode g u
  | .addArc a b => addArc g a b
  | .deleteArc a b => deleteArc g a b

/-- Run a call sequence, `none` as soon as any call raises. -/
def runOk : Digraph → List Op → Option Digraph
  | g, [] => some g
  | g, op :: rest =>
    match runOp g op with
    | (none, g') => runOk g' rest
    | (some _, _) => none

theorem inv_runOp {g : Digraph} {op : Op} {g' : Digraph}
    (h1 : Inv1 g) (h2 : Inv2 g) (hrun : runOp g op = (none, g')) :
    Inv1 g' ∧ Inv2 g' := by
  cases op with
  | addNode u => exact inv_addNode h1 h2 hrun
  | deleteNode u => exact inv_deleteNode h1 h2 hrun
  | addArc a b => exact inv_addArc h1 h2 hrun
  | deleteArc a b => exact inv_deleteArc h1 h2 hrun

theorem inv_runOk : ∀ (ops : List Op) (g0 g : Digraph),
    Inv1 g0 → Inv2 g0 → runOk g0 ops = some g → Inv1 g ∧ Inv2 g := by
  intro ops
  induction ops with
  | nil =>
    intro g0 g h1 h2 hrun
    cases hrun
    exact ⟨h1, h2⟩
  | cons op rest ih =>
    intro g0 g h1 h2 hrun
    unfold runOk at hrun
    cases hop : runOp g0 op with
    | mk e g' =>
      cases e with
      | none =>
        rw [hop] at hrun
        obtain ⟨h1', h2'⟩ := inv_runOp h1 h2 hop
        exact ih g' g h1' h2' hrun
      | some err =>
        rw [hop] at hrun
        cases hrun

/-- C1: after any non-raising sequence of addNode/deleteNode/addArc/
deleteArc calls from the empty digraph, the bidirectional adjacency
invariants hold for every remaining node: every out-reference names an
existing node holding the matching in-reference, and symmetrically. -/
theorem mutation_sequences_preserve_invariants (ops : List Op) (g : Digraph)
    (h : runOk emptyDigraph ops = some g) : Inv1 g ∧ Inv2 g :=
  inv_runOk ops emptyDigraph g emptyDigraph_inv.1 emptyDigraph_inv.2 h

/-- Witness for C1: the diamond-building call sequence succeeds and the
resulting concrete graph satisfies both invariants. -/
theorem mutation_sequences_preserve_invariants_witness :
    runOk emptyDigraph [Op.addNode 1, Op.addNode 2, Op.addNode 3,
      Op.addNode 4, Op.addArc 1 2, Op.addArc 1 3, Op.addArc 2 4,
      Op.addArc 3 4] = some gDiamond ∧ (Inv1 gDiamond ∧ Inv2 gDiamond) :=
  ⟨by decide, mutation_sequences_preserve_invariants
    [Op.addNode 1, Op.addNode 2, Op.addNode 3, Op.addNode 4, Op.addArc 1 2,
     Op.addArc 1 3, Op.addArc 2 4, Op.addArc 3 4] gDiamond (by decide)⟩

/-! ### Step equations for the searches -/

theorem bfsLoop_succ (g : Digraph) (fuel index : Nat)
    (visited vec : List Ident) :
    bfsLoop g (fuel + 1) index visited vec =
      if index = vec.length then some (none, vec)
      else
        match lookup g (vec.getD index 0) with
        | none =>
          some (some (.node_not_found "bfSearch" (vec.getD index 0)), vec)
        | some n =>
          bfsLoop g fuel (index + 1)
            (pushNeighbours n.out visited vec).1
            (pushNeighbours n.out visited vec).2 := rfl

theorem bfSearch_missing_root {g : Digraph} {r : Ident}
    (hr : lookup g r = none) :
    bfSearch g r [] = some (some (.node_not_found "bfSearch" r), [r]) := by
  unfold bfSearch
  rw [show ([] : List Ident).length + outTotal g + 2 =
    (outTotal g + 1) + 1 from by simp_arith]
  rw [bfsLoop_succ]
  simp [hr]

theorem dfSearch_missing_root {g : Digraph} {r : Ident}
    (hr : lookup g r = none) (vec : List Ident) :
    dfSearch g r vec = some (some (.node_not_found "dfSearch" r), vec) := by
  unfold dfSearch
  rw [show g.nodes.length + 2 = (g.nodes.length + 1) + 1 from rfl]
  rw [show dfsAux g ((g.nodes.length + 1) + 1) r [] vec =
    some (some (.node_not_found "dfSearch" r), setInsert [] r, vec) from by
      rw [dfsAux]
      simp [hr]]

/-! ### Claim theorems: error handling and algebraic laws -/

/-- Counterexample to C4 as stated: C4 lists `checkArc` among the
operations that raise `node_not_found` whenever called with an absent
identifier argument, but `checkArc` only validates its first argument —
with `from` = 1 present and `to` = 9 absent from the diamond graph it
returns `ok false` and raises nothing. -/
theorem checkArc_missing_to_does_not_raise :
    lookup gDiamond 9 = none ∧
    checkArc gDiamond 1 9 = .ok false ∧
    ∀ e, checkArc gDiamond 1 9 ≠ .error e := by
  refine ⟨by decide, rfl, fun e h => ?_⟩
  rw [show checkArc gDiamond 1 9 = .ok false from rfl] at h
  cases h

/-- C4 (amended): deleteNode, addArc, deleteArc, outDegree, inDegree,
bfSearch and dfSearch raise `node_not_found` on a missing identifier
argument (either endpoint, for the arc operations) and leave the node map
— hence every adjacency set — exactly as it was, addArc in particular
performing no insertion; `checkArc` raises only when `from` is missing,
and with an existing `from` it never raises, returning the membership test
even when `to` is the missing identifier.  (`checkArc`/`outDegree`/
`inDegree` are read-only, and the searches never write to the node map, so
for them the error value is the whole story; the searches' output vectors
are covered too.) -/
theorem missing_identifier_raises_and_preserves (g : Digraph) (x : Ident)
    (hx : lookup g x = none) :
    (∀ a na, lookup g a = some na →
      checkArc g a x = .ok (decide (x ∈ na.out))) ∧
    deleteNode g x = (some (.node_not_found "deleteNode" x), g) ∧
    (∀ y, addArc g x y = (some (.node_not_found "addArc" x), g)) ∧
    (∀ a na, lookup g a = some na →
      addArc g a x = (some (.node_not_found "addArc" x), g)) ∧
    (∀ y, deleteArc g x y = (some (.node_not_found "deleteArc" x), g)) ∧
    (∀ a na, lookup g a = some na →
      deleteArc g a x = (some (.node_not_found "deleteArc" x), g)) ∧
    (∀ y, checkArc g x y = .error (.node_not_found "checkArc" x)) ∧
    outDegree g x = .error (.node_not_found "outDegree" x) ∧
    inDegree g x = .error (.node_not_found "inDegree" x) ∧
    bfSearch g x [] = some (some (.node_not_found "bfSearch" x), [x]) ∧
    dfSearch g x [] = some (some (.node_not_found "dfSearch" x), []) := by
  refine ⟨?_, ?_, ?_, ?_, ?_, ?_, ?_, ?_, ?_, ?_, ?_⟩
  · intro a na ha; simp [checkArc, ha]
  · simp [deleteNode, hx]
  · intro y; simp [addArc, hx]
  · intro a na ha; simp [addArc, ha, hx]
  · intro y; simp [deleteArc, hx]
  · intro a na ha; simp [deleteArc, ha, hx]
  · intro y; simp [checkArc, hx]
  · simp [outDegree, hx]
  · simp [inDegree, hx]
  · exact bfSearch_missing_root hx
  · exact dfSearch_missing_root hx []

/-- Witness for C4 at the diamond graph and the absent identifier 9. -/
theorem missing_identifier_raises_and_preserves_witness :
    (∀ a na, lookup gDiamond a = some na →
      checkArc gDiamond a 9 = .ok (decide (9 ∈ na.out))) ∧
    deleteNode gDiamond 9 =
      (some (.node_not_found "deleteNode" 9), gDiamond) ∧
    (∀ y, addArc gDiamond 9 y = (some (.node_not_found "addArc" 9), gDiamond)) ∧
    (∀ a na, lookup gDiamond a = some na →
      addArc gDiamond a 9 = (some (.node_not_found "addArc" 9), gDiamond)) ∧
    (∀ y, deleteArc gDiamond 9 y =
      (some (.node_not_found "deleteArc" 9), gDiamond)) ∧
    (∀ a na, lookup gDiamond a = some na →
      deleteArc gDiamond a 9 = (some (.node_not_found "deleteArc" 9), gDiamond)) ∧
    (∀ y, checkArc gDiamond 9 y = .error (.node_not_found "checkArc" 9)) ∧
    outDegree gDiamond 9 = .error (.node_not_found "outDegree" 9) ∧
    inDegree gDiamond 9 = .error (.node_not_found "inDegree" 9) ∧
    bfSearch gDiamond 9 [] =
      some (some (.node_not_found "bfSearch" 9), [9]) ∧
    dfSearch gDiamond 9 [] =
      some (some (.node_not_found "dfSearch" 9), []) :=
  missing_identifier_raises_and_preserves gDiamond 9 (by decide)

theorem setInsert_idem (s : List Ident) (x : Ident) :
    setInsert (setInsert s x) x = setInsert s x :=
  setInsert_of_mem (mem_setInsert.mpr (Or.inl rfl))

theorem mapUpdate_eq_map (m : List (Ident × Node)) (k : Ident)
    (f : Node → Node) :
    mapUpdate m k f = m.map (fun p => if p.1 = k then (p.1, f p.2) else p) := by
  induction m with
  | nil => rfl
  | cons p rest ih =>
    rw [show mapUpdate (p :: rest) k f =
      (if p.1 = k then (p.1, f p.2) else p) :: mapUpdate rest k f from rfl,
      List.map_cons, ih]

/-- C5: adding an arc between two existing nodes twice leaves the graph in
the same state as adding it once (the second call returns without error and
without changing the map), so in particular `outDegree`/`inDegree` agree
after one call and after two. -/
theorem addArc_idempotent {g : Digraph} {a b : Ident} {na nb : Node}
    (ha : lookup g a = some na) (hb : lookup g b = some nb) :
    (addArc g a b).1 = none ∧
    addArc (addArc g a b).2 a b = (none, (addArc g a b).2) ∧
    outDegree (addArc (addArc g a b).2 a b).2 a =
      outDegree (addArc g a b).2 a ∧
    inDegree (addArc (addArc g a b).2 a b).2 b =
      inDegree (addArc g a b).2 b := by
  have ha1 : lookup (addArc g a b).2 a =
      some (arcInsEffect a b a na) := by
    rw [addArc_lookup ha hb a, ha]; rfl
  have hb1 : lookup (addArc g a b).2 b =
      some (arcInsEffect a b b nb) := by
    rw [addArc_lookup ha hb b, hb]; rfl
  have hsnd : (addArc g a b).2 = ⟨mapUpdate (mapUpdate g.nodes a
      (fun m => { m with out := setInsert m.out b })) b
      (fun m => { m with inn := setInsert m.inn a })⟩ := by
    rw [addArc_some ha hb]
  have hstate : addArc (addArc g a b).2 a b = (none, (addArc g a b).2) := by
    rw [addArc_some ha1 hb1]
    refine Prod.ext rfl ?_
    rw [hsnd]
    simp only [Digraph.mk.injEq]
    simp only [mapUpdate_eq_map, List.map_map]
    refine congrArg (fun F => List.map F g.nodes) (funext fun p => ?_)
    by_cases hpa : p.1 = a
    · by_cases hpb : p.1 = b
      · have hab : a = b := by rw [← hpa, hpb]
        subst hab
        simp [Function.comp, hpa, setInsert_idem]
      · have hab : ¬ a = b := fun h => hpb (hpa.trans h)
        have hba : ¬ b = a := fun h => hab h.symm
        simp [Function.comp, hpa, hpb, hab, hba, setInsert_idem]
    · by_cases hpb : p.1 = b
      · have hba : ¬ b = a := fun h => hpa (hpb.trans h)
        have hab : ¬ a = b := fun h => hba h.symm
        simp [Function.comp, hpa, hpb, hab, hba, setInsert_idem]
      · simp [Function.comp, hpa, hpb]
  exact ⟨by rw [addArc_some ha hb], hstate, by rw [hstate], by rw [hstate]⟩

/-- Witness for C5 on the diamond graph with the existing arc 1→2. -/
theorem addArc_idempotent_witness :
    (addArc gDiamond 1 2).1 = none ∧
    addArc (addArc gDiamond 1 2).2 1 2 = (none, (addArc gDiamond 1 2).2) ∧
    outDegree (addArc (addArc gDiamond 1 2).2 1 2).2 1 =
      outDegree (addArc gDiamond 1 2).2 1 ∧
    inDegree (addArc (addArc gDiamond 1 2).2 1 2).2 2 =
      inDegree (addArc gDiamond 1 2).2 2 :=
  @addArc_idempotent gDiamond 1 2 ⟨1, [], [2, 3]⟩ ⟨2, [1], [4]⟩
    (by decide) (by decide)

/-- C6: `addNode` raises `node_uniqueness_violation` exactly when the uid
already exists, and then returns the graph untouched; on success it adds a
node with empty adjacency sets and leaves every other node's entry
unchanged. -/
theorem addNode_duplicate_behaviour (g : Digraph) (x : Ident) :
    ((addNode g x).1 = some (.node_uniqueness_violation x) ↔
      (lookup g x).isSome) ∧
    (∀ n, lookup g x = some n →
      addNode g x = (some (.node_uniqueness_violation x), g)) ∧
    (lookup g x = none →
      (addNode g x).1 = none ∧
      lookup (addNode g x).2 x = some ⟨x, [], []⟩ ∧
      ∀ y, y ≠ x → lookup (addNode g x).2 y = lookup g y) := by
  refine ⟨?_, ?_, ?_⟩
  · constructor
    · intro h
      cases hx : lookup g x with
      | none => rw [addNode_missing hx] at h; cases h
      | some n => simp
    · intro h
      obtain ⟨n, hn⟩ := Option.isSome_iff_exists.mp h
      rw [addNode_dup hn]
  · intro n hn
    exact addNode_dup hn
  · intro hx
    rw [addNode_missing hx]
    refine ⟨rfl, ?_, ?_⟩
    · show lookup ⟨mapInsert g.nodes x ⟨x, [], []⟩⟩ x = _
      rw [lookup_mapInsert, if_pos rfl]
    · intro y hy
      show lookup ⟨mapInsert g.nodes x ⟨x, [], []⟩⟩ y = _
      rw [lookup_mapInsert, if_neg hy]

/-- Witness for C6 at the single-node graph and its identifier 7. -/
theorem addNode_duplicate_behaviour_witness :
    ((addNode gSingle 7).1 = some (.node_uniqueness_violation 7) ↔
      (lookup gSingle 7).isSome) ∧
    (∀ n, lookup gSingle 7 = some n →
      addNode gSingle 7 = (some (.node_uniqueness_violation 7), gSingle)) ∧
    (lookup gSingle 7 = none →
      (addNode gSingle 7).1 = none ∧
      lookup (addNode gSingle 7).2 7 = some ⟨7, [], []⟩ ∧
      ∀ y, y ≠ 7 → lookup (addNode gSingle 7).2 y = lookup gSingle y) :=
  addNode_duplicate_behaviour gSingle 7

/-- C7: `checkArc from to` returns exactly the membership of `to` in
`from`'s out-set; it raises `node_not_found` when `from` is absent, and
when `from` exists but `to` does not (in a graph satisfying invariant 1) it
returns `false` without raising. -/
theorem checkArc_membership (g : Digraph) (f t : Ident) :
    (∀ n, lookup g f = some n →
      checkArc g f t = .ok (decide (t ∈ n.out))) ∧
    (lookup g f = none →
      checkArc g f t = .error (.node_not_found "checkArc" f)) ∧
    (∀ n, lookup g f = some n → Inv1 g → lookup g t = none →
      checkArc g f t = .ok false) := by
  refine ⟨?_, ?_, ?_⟩
  · intro n hn; simp [checkArc, hn]
  · intro hf; simp [checkArc, hf]
  · intro n hn h1 ht
    have hmem : ¬ t ∈ n.out := by
      intro hm
      obtain ⟨nt, hnt, _⟩ := h1 f n hn t hm
      rw [ht] at hnt
      cases hnt
    simp [checkArc, hn, hmem]

/-- Witness for C7 on the diamond graph, `from` = 1 and absent `to` = 9. -/
theorem checkArc_membership_witness :
    (∀ n, lookup gDiamond 1 = some n →
      checkArc gDiamond 1 9 = .ok (decide (9 ∈ n.out))) ∧
    (lookup gDiamond 1 = none →
      checkArc gDiamond 1 9 = .error (.node_not_found "checkArc" 1)) ∧
    (∀ n, lookup gDiamond 1 = some n → Inv1 gDiamond →
      lookup gDiamond 9 = none → checkArc gDiamond 1 9 = .ok false) :=
  checkArc_membership gDiamond 1 9

/-- C8: on a graph satisfying the invariants, `addArc A A` (self-loop)
followed by `deleteNode A` raises no error, removes A, leaves no other
node holding a reference to A, and keeps both invariants intact. -/
theorem selfLoop_then_deleteNode (g : Digraph) (A : Ident) (nA : Node)
    (hA : lookup g A = some nA) (h1 : Inv1 g) (h2 : Inv2 g) :
    (addArc g A A).1 = none ∧
    (deleteNode (addArc g A A).2 A).1 = none ∧
    lookup (deleteNode (addArc g A A).2 A).2 A = none ∧
    (∀ k n, lookup (deleteNode (addArc g A A).2 A).2 k = some n →
      A ∉ n.inn ∧ A ∉ n.out) ∧
    Inv1 (deleteNode (addArc g A A).2 A).2 ∧
    Inv2 (deleteNode (addArc g A A).2 A).2 := by
  have hrun1 : addArc g A A = (none, (addArc g A A).2) := by
    rw [addArc_some hA hA]
  obtain ⟨h1', h2'⟩ := inv_addArc h1 h2 hrun1
  have hA1 : lookup (addArc g A A).2 A = some (arcInsEffect A A A nA) := by
    rw [addArc_lookup hA hA A, hA]; rfl
  have hin : ∀ y ∈ (arcInsEffect A A A nA).inn,
      (lookup (addArc g A A).2 y).isSome := by
    intro y hy
    obtain ⟨ny, hny, _⟩ := h2' A _ hA1 y hy
    simp [hny]
  have hout : ∀ x ∈ (arcInsEffect A A A nA).out,
      (lookup (addArc g A A).2 x).isSome := by
    intro x hx
    obtain ⟨nx, hnx, _⟩ := h1' A _ hA1 x hx
    simp [hnx]
  obtain ⟨g'', hrun2, hd, hchar⟩ := deleteNode_spec hA1 hin hout
  have hsnd : (deleteNode (addArc g A A).2 A).2 = g'' := by rw [hrun2]
  obtain ⟨h1'', h2''⟩ := inv_deleteNode h1' h2' (by rw [hrun2])
  refine ⟨by rw [hrun1], by rw [hrun2], by rw [hsnd]; exact hd, ?_,
    by rwa [hsnd], by rwa [hsnd]⟩
  intro k n hkn
  rw [hsnd] at hkn
  have hkA : k ≠ A := by
    intro hh
    rw [hh, hd] at hkn
    cases hkn
  rw [hchar k hkA] at hkn
  obtain ⟨m, hm, hef⟩ := Option.map_eq_some'.mp hkn
  constructor
  · rw [hef.symm, delNodeEffect_inn]
    by_cases hko : k ∈ (arcInsEffect A A A nA).out
    · rw [if_pos hko, mem_setErase]
      rintro ⟨-, hne⟩
      exact hne rfl
    · rw [if_neg hko]
      intro hmem
      obtain ⟨ny, hny, hout'⟩ := h2' k m hm A hmem
      rw [hA1] at hny
      cases hny
      exact hko hout'
  · rw [hef.symm, delNodeEffect_out]
    by_cases hki : k ∈ (arcInsEffect A A A nA).inn
    · rw [if_pos hki, mem_setErase]
      rintro ⟨-, hne⟩
      exact hne rfl
    · rw [if_neg hki]
      intro hmem
      obtain ⟨nx, hnx, hin'⟩ := h1' k m hm A hmem
      rw [hA1] at hnx
      cases hnx
      exact hki hin'

/-- Witness for C8 on the one-node graph (node 7), whose invariants are
checked on the entry list. -/
theorem selfLoop_then_deleteNode_witness :
    (addArc gSingle 7 7).1 = none ∧
    (deleteNode (addArc gSingle 7 7).2 7).1 = none ∧
    lookup (deleteNode (addArc gSingle 7 7).2 7).2 7 = none ∧
    (∀ k n, lookup (deleteNode (addArc gSingle 7 7).2 7).2 k = some n →
      7 ∉ n.inn ∧ 7 ∉ n.out) ∧
    Inv1 (deleteNode (addArc gSingle 7 7).2 7).2 ∧
    Inv2 (deleteNode (addArc gSingle 7 7).2 7).2 :=
  selfLoop_then_deleteNode gSingle 7 ⟨7, [], []⟩ (by decide)
    (inv1_of_list (by decide) (by decide))
    (inv2_of_list (by decide) (by decide))

/-- C10: with a root absent from the graph, `bfSearch` pushes the root into
the output vector before the loop detects the missing node and raises, so
the vector is left holding the nonexistent root; `dfSearch` raises before
appending anything, leaving the caller's vector unchanged. -/
theorem search_missing_root_vector_state (g : Digraph) (r : Ident)
    (hr : lookup g r = none) :
    bfSearch g r [] = some (some (.node_not_found "bfSearch" r), [r]) ∧
    ∀ vec, dfSearch g r vec = some (some (.node_not_found "dfSearch" r), vec) :=
  ⟨bfSearch_missing_root hr, fun vec => dfSearch_missing_root hr vec⟩

/-- Witness for C10 on the diamond graph with absent root 9. -/
theorem search_missing_root_vector_state_witness :
    bfSearch gDiamond 9 [] =
      some (some (.node_not_found "bfSearch" 9), [9]) ∧
    ∀ vec, dfSearch gDiamond 9 vec =
      some (some (.node_not_found "dfSearch" 9), vec) :=
  search_missing_root_vector_state gDiamond 9 (by decide)

/-! ### Reachability along outgoing arcs -/

/-- One arc: `b` is an out-neighbour of the existing node `a`. -/
def Step (g : Digraph) (a b : Ident) : Prop :=
  ∃ n, lookup g a = some n ∧ b ∈ n.out

/-- Reachability via outgoing arcs (reflexive-transitive closure). -/
def Reachable (g : Digraph) : Ident → Ident → Prop :=
  Relation.ReflTransGen (Step g)

/-- All out-set entries of all nodes, concatenated. -/
def outElems (g : Digraph) : List Ident :=
  (g.nodes.map (fun p => p.2.out)).flatten

theorem outElems_length (g : Digraph) :
    (outElems g).length = outTotal g := by
  unfold outElems outTotal
  rw [List.length_flatten, List.map_map]
  rfl

theorem mem_outElems {g : Digraph} {a : Ident} {n : Node}
    (h : lookup g a = some n) {x : Ident} (hx : x ∈ n.out) :
    x ∈ outElems g := by
  unfold outElems
  exact List.mem_flatten.mpr ⟨n.out,
    List.mem_map.mpr ⟨(a, n), lookup_mem h, rfl⟩, hx⟩

theorem reachable_isSome {g : Digraph} (hc : OutClosed g) {root : Ident}
    (hroot : (lookup g root).isSome) {x : Ident}
    (hr : Reachable g root x) : (lookup g x).isSome := by
  induction hr with
  | refl => exact hroot
  | tail _ hstep ih =>
    obtain ⟨n, hn, hmem⟩ := hstep
    obtain ⟨m, hm⟩ := Option.isSome_iff_exists.mp ih
    rw [hm] at hn
    cases hn
    exact outClosed_lookup hc hm _ hmem

theorem length_le_of_nodup_subset (l l' : List Ident) (hnd : l.Nodup)
    (hsub : ∀ x ∈ l, x ∈ l') : l.length ≤ l'.length :=
  (List.subperm_of_subset hnd hsub).length_le

/-! ### The BFS inner loop -/

theorem pushNeighbours_spec : ∀ (l v vec : List Ident), ∃ t,
    pushNeighbours l v vec = (v ++ t, vec ++ t) ∧
    (∀ x ∈ t, x ∈ l ∧ x ∉ v) ∧
    (∀ x, x ∈ v ++ t ↔ x ∈ v ∨ x ∈ l) ∧
    (v.Nodup → (v ++ t).Nodup) := by
  intro l
  induction l with
  | nil =>
    intro v vec
    exact ⟨[], by simp [pushNeighbours], by simp, by simp, by simp⟩
  | cons nb rest ih =>
    intro v vec
    by_cases hnb : nb ∈ v
    · obtain ⟨t, heq, hin, hiff, hnd⟩ := ih v vec
      have hstep : pushNeighbours (nb :: rest) v vec =
          pushNeighbours rest v vec := by simp [pushNeighbours, hnb]
      refine ⟨t, hstep.trans heq, ?_, ?_, hnd⟩
      · exact fun x hx => ⟨List.mem_cons_of_mem _ (hin x hx).1, (hin x hx).2⟩
      · intro x
        rw [hiff x]
        constructor
        · rintro (h | h)
          · exact Or.inl h
          · exact Or.inr (List.mem_cons_of_mem _ h)
        · rintro (h | h)
          · exact Or.inl h
          · rcases List.mem_cons.mp h with rfl | h
            · exact Or.inl hnb
            · exact Or.inr h
    · obtain ⟨t, heq, hin, hiff, hnd⟩ := ih (v ++ [nb]) (vec ++ [nb])
      refine ⟨nb :: t, ?_, ?_, ?_, ?_⟩
      · rw [show pushNeighbours (nb :: rest) v vec =
          pushNeighbours rest (v ++ [nb]) (vec ++ [nb]) from by
            simp [pushNeighbours, hnb]]
        rw [heq, List.append_assoc, List.append_assoc]
        rfl
      · intro x hx
        rcases List.mem_cons.mp hx with rfl | hx
        · exact ⟨List.mem_cons_self _ _, hnb⟩
        · obtain ⟨h1, h2⟩ := hin x hx
          exact ⟨List.mem_cons_of_mem _ h1,
            fun hv => h2 (List.mem_append_left _ hv)⟩
      · intro x
        have base := hiff x
        rw [List.append_assoc] at base
        rw [show v ++ nb :: t = v ++ ([nb] ++ t) from rfl]
        rw [base]
        simp only [List.mem_append, List.mem_singleton, List.mem_cons]
        tauto
      · intro hv
        have : (v ++ [nb]).Nodup := by
          simp [List.nodup_append, hv, hnb]
        have h2 := hnd this
        rw [List.append_assoc] at h2
        exact h2

/-- The BFS loop, run with `visited = vec` (which `bfSearch` establishes
when the caller's vector is empty), succeeds and computes a duplicate-free
superset of `vec` that is closed under `Step` and reachable from `root`,
provided the fuel dominates the remaining work. -/
theorem bfsLoop_reaches (g : Digraph) (root : Ident) (hc : OutClosed g)
    (hroot : (lookup g root).isSome) :
    ∀ (fuel index : Nat) (vec : List Ident),
      vec.Nodup →
      root ∈ vec →
      (∀ x ∈ vec, Reachable g root x) →
      index ≤ vec.length →
      (∀ j, j < index → ∀ y, Step g (vec.getD j 0) y → y ∈ vec) →
      (∀ x ∈ vec, x = root ∨ x ∈ outElems g) →
      (vec.length - index) + (1 + outTotal g - vec.length) + 1 ≤ fuel →
      ∃ out, bfsLoop g fuel index vec vec = some (none, out) ∧
        vec <+: out ∧ out.Nodup ∧
        (∀ x ∈ out, Reachable g root x) ∧
        (∀ x ∈ out, ∀ y, Step g x y → y ∈ out) := by
  intro fuel
  induction fuel with
  | zero => intro index vec _ _ _ _ _ _ hfuel; omega
  | succ f ihf =>
    intro index vec hnd hrootv hreach hle hclosed hsub hfuel
    rw [bfsLoop_succ]
    by_cases hidx : index = vec.length
    · rw [if_pos hidx]
      refine ⟨vec, rfl, List.prefix_refl vec, hnd, hreach, ?_⟩
      intro x hx y hstep
      obtain ⟨i, hi, hxi⟩ := List.getElem_of_mem hx
      have : vec.getD i 0 = x := by rw [List.getD_eq_getElem vec 0 hi, hxi]
      exact hclosed i (by omega) y (this ▸ hstep)
    · rw [if_neg hidx]
      have hlt : index < vec.length := by omega
      have hcurr_mem : vec.getD index 0 ∈ vec := by
        rw [List.getD_eq_getElem vec 0 hlt]
        exact List.getElem_mem hlt
      have hcurr_reach := hreach _ hcurr_mem
      obtain ⟨n, hn⟩ :=
        Option.isSome_iff_exists.mp (reachable_isSome hc hroot hcurr_reach)
      rw [hn]
      dsimp only
      obtain ⟨t, heq, hin, hiff, hndt⟩ := pushNeighbours_spec n.out vec vec
      rw [heq]
      dsimp only
      have hnd' : (vec ++ t).Nodup := hndt hnd
      have hsub' : ∀ x ∈ vec ++ t, x = root ∨ x ∈ outElems g := by
        intro x hx
        rcases List.mem_append.mp hx with hx | hx
        · exact hsub x hx
        · exact Or.inr (mem_outElems hn (hin x hx).1)
      have hlen' : (vec ++ t).length ≤ 1 + outTotal g := by
        have := length_le_of_nodup_subset (vec ++ t) (root :: outElems g)
          hnd'
          (fun x hx => by
            rcases hsub' x hx with h | h
            · rw [h]; exact List.mem_cons_self root (outElems g)
            · exact List.mem_cons_of_mem _ h)
        rwa [List.length_cons, outElems_length, Nat.add_comm] at this
      have hreach' : ∀ x ∈ vec ++ t, Reachable g root x := by
        intro x hx
        rcases List.mem_append.mp hx with hx | hx
        · exact hreach x hx
        · exact Relation.ReflTransGen.tail hcurr_reach ⟨n, hn, (hin x hx).1⟩
      have hclosed' : ∀ j, j < index + 1 → ∀ y,
          Step g ((vec ++ t).getD j 0) y → y ∈ vec ++ t := by
        intro j hj y hstep
        by_cases hji : j < index
        · rw [List.getD_append _ _ _ _ (by omega)] at hstep
          exact List.mem_append_left _ (hclosed j hji y hstep)
        · have hj' : j = index := by omega
          subst hj'
          rw [List.getD_append _ _ _ _ hlt] at hstep
          obtain ⟨n', hn', hy⟩ := hstep
          rw [hn] at hn'
          cases hn'
          exact (hiff y).mpr (Or.inr hy)
      have hfuel' : ((vec ++ t).length - (index + 1)) +
          (1 + outTotal g - (vec ++ t).length) + 1 ≤ f := by
        rw [List.length_append] at hlen' ⊢
        omega
      obtain ⟨out, hrun, hpre, hndo, hro, hco⟩ := ihf (index + 1) (vec ++ t)
        hnd' (List.mem_append_left _ hrootv) hreach'
        (by rw [List.length_append]; omega) hclosed' hsub' hfuel'
      exact ⟨out, hrun, (List.prefix_append vec t).trans hpre, hndo, hro, hco⟩

theorem bfSearch_empty_eq (g : Digraph) (root : Ident) :
    bfSearch g root [] =
      bfsLoop g (outTotal g + 2) 0 [root] [root] := by
  unfold bfSearch
  norm_num [setInsert]

/-- C2: on a digraph whose out-references all resolve, `bfSearch` from an
existing root succeeds, its output starts with the root, has no duplicates,
and contains exactly the identifiers reachable from the root via outgoing
arcs; a missing root raises `node_not_found`; and on the diamond graph
(arcs A→B, A→C, B→D, C→D) both B and C are listed before D (level
order). -/
theorem bfSearch_level_order (g : Digraph) (root : Ident)
    (hc : OutClosed g) (hroot : (lookup g root).isSome) :
    (∃ out, bfSearch g root [] = some (none, out) ∧
      out.head? = some root ∧ out.Nodup ∧
      (∀ x, x ∈ out ↔ Reachable g root x)) ∧
    (∀ r, lookup g r = none →
      bfSearch g r [] = some (some (.node_not_found "bfSearch" r), [r])) ∧
    (∃ outD, bfSearch gDiamond 1 [] = some (none, outD) ∧
      outD.head? = some 1 ∧ outD.Nodup ∧
      outD.indexOf 2 < outD.indexOf 4 ∧ outD.indexOf 3 < outD.indexOf 4) := by
  refine ⟨?_, fun r hr => bfSearch_missing_root hr,
    ⟨[1, 2, 3, 4], by decide, by decide, by decide, by decide, by decide⟩⟩
  rw [bfSearch_empty_eq]
  obtain ⟨out, hrun, hpre, hnd, hreach, hclose⟩ :=
    bfsLoop_reaches g root hc hroot (outTotal g + 2) 0 [root]
      (List.nodup_singleton root)
      (List.mem_singleton.mpr rfl)
      (by
        intro x hx
        rw [List.mem_singleton] at hx
        rw [hx]
        exact Relation.ReflTransGen.refl)
      (by simp)
      (by intro j hj; omega)
      (fun x hx => Or.inl (List.mem_singleton.mp hx))
      (by simp; omega)
  have hrooto : root ∈ out := hpre.subset (List.mem_singleton.mpr rfl)
  refine ⟨out, hrun, ?_, hnd, fun x => ⟨hreach x, fun hx => ?_⟩⟩
  · obtain ⟨s, hs⟩ := hpre
    rw [← hs]
    rfl
  · have hx' : Relation.ReflTransGen (Step g) root x := hx
    induction hx' with
    | refl => exact hrooto
    | tail hab hbc ih => exact hclose _ (ih hab) _ hbc

/-- Witness for C2 at the diamond graph with root 1. -/
theorem bfSearch_level_order_witness :
    (∃ out, bfSearch gDiamond 1 [] = some (none, out) ∧
      out.head? = some 1 ∧ out.Nodup ∧
      (∀ x, x ∈ out ↔ Reachable gDiamond 1 x)) ∧
    (∀ r, lookup gDiamond r = none →
      bfSearch gDiamond r [] =
        some (some (.node_not_found "bfSearch" r), [r])) ∧
    (∃ outD, bfSearch gDiamond 1 [] = some (none, outD) ∧
      outD.head? = some 1 ∧ outD.Nodup ∧
      outD.indexOf 2 < outD.indexOf 4 ∧ outD.indexOf 3 < outD.indexOf 4) :=
  bfSearch_level_order gDiamond 1 (by decide) (by decide)

/-! ### DFS: a measure for the recursion depth -/

/-- The keys of the node map, as a finite set. -/
def keysFinset (g : Digraph) : Finset Ident :=
  (g.nodes.map (fun p => p.1)).toFinset

/-- How many keys of `g` the traversed set has not yet swallowed. -/
def remaining (g : Digraph) (tr : List Ident) : Nat :=
  (keysFinset g \ tr.toFinset).card

theorem remaining_le_of_subset (g : Digraph) {tr tr' : List Ident}
    (hsub : ∀ x ∈ tr, x ∈ tr') : remaining g tr' ≤ remaining g tr := by
  unfold remaining
  refine Finset.card_le_card (Finset.sdiff_subset_sdiff
    (Finset.Subset.refl _) ?_)
  intro x hx
  rw [List.mem_toFinset] at hx ⊢
  exact hsub x hx

theorem remaining_lt_insert (g : Digraph) {c : Ident} {tr : List Ident}
    (hcs : (lookup g c).isSome) (hctr : c ∉ tr) :
    remaining g (setInsert tr c) < remaining g tr := by
  obtain ⟨n, hn⟩ := Option.isSome_iff_exists.mp hcs
  have hck : c ∈ keysFinset g := by
    unfold keysFinset
    rw [List.mem_toFinset]
    exact List.mem_map.mpr ⟨(c, n), lookup_mem hn, rfl⟩
  have hins : (setInsert tr c).toFinset = insert c tr.toFinset := by
    ext x
    rw [List.mem_toFinset, mem_setInsert, Finset.mem_insert,
      List.mem_toFinset]
  unfold remaining
  rw [hins]
  have hsd : keysFinset g \ insert c tr.toFinset =
      (keysFinset g \ tr.toFinset).erase c := by
    ext x
    simp only [Finset.mem_sdiff, Finset.mem_insert, Finset.mem_erase]
    tauto
  rw [hsd]
  exact Finset.card_erase_lt_of_mem
    (Finset.mem_sdiff.mpr ⟨hck, by
      rw [List.mem_toFinset]
      exact hctr⟩)

theorem remaining_le_length (g : Digraph) (tr : List Ident) :
    remaining g tr ≤ g.nodes.length := by
  unfold remaining
  calc (keysFinset g \ tr.toFinset).card
      ≤ (keysFinset g).card := Finset.card_le_card (Finset.sdiff_subset)
    _ ≤ (g.nodes.map (fun p => p.1)).length := List.toFinset_card_le _
    _ = g.nodes.length := List.length_map _ _

/-! ### DFS: combined specification of the mutual recursion -/

/-- Success and postconditions of `dfsAux`/`dfsLoop` when every
referenced node resolves: the traversed set grows by exactly the freshly
appended output identifiers, the output is duplicate-free, the current
node is appended last, everything new is reachable from it, and the final
traversed set is closed under `Step` on all new identifiers. -/
theorem dfs_spec (g : Digraph) (hc : OutClosed g) : ∀ fuel : Nat,
    (∀ c tr vec, (lookup g c).isSome → c ∉ tr →
      remaining g tr + 1 ≤ fuel →
      ∃ tr2 new, dfsAux g fuel c tr vec = some (none, tr2, vec ++ new) ∧
        (∀ x ∈ tr, x ∈ tr2) ∧ c ∈ tr2 ∧
        (∀ x, x ∈ tr2 ↔ x ∈ tr ∨ x ∈ new) ∧
        new.Nodup ∧ (∀ x ∈ new, x ∉ tr) ∧
        new.getLast? = some c ∧
        (∀ x ∈ new, Reachable g c x) ∧
        (∀ x ∈ new, ∀ y, Step g x y → y ∈ tr2)) ∧
    (∀ l tr vec, (∀ nb ∈ l, (lookup g nb).isSome) →
      remaining g tr + 1 ≤ fuel →
      ∃ tr2 new, dfsLoop (dfsAux g fuel) l tr vec =
          some (none, tr2, vec ++ new) ∧
        (∀ x ∈ tr, x ∈ tr2) ∧ (∀ nb ∈ l, nb ∈ tr2) ∧
        (∀ x, x ∈ tr2 ↔ x ∈ tr ∨ x ∈ new) ∧
        new.Nodup ∧ (∀ x ∈ new, x ∉ tr) ∧
        (∀ x ∈ new, ∃ nb ∈ l, Reachable g nb x) ∧
        (∀ x ∈ new, ∀ y, Step g x y → y ∈ tr2)) := by
  intro fuel
  induction fuel using Nat.strong_induction_on with
  | _ fuel ih =>
  have haux : ∀ c tr vec, (lookup g c).isSome → c ∉ tr →
      remaining g tr + 1 ≤ fuel →
      ∃ tr2 new, dfsAux g fuel c tr vec = some (none, tr2, vec ++ new) ∧
        (∀ x ∈ tr, x ∈ tr2) ∧ c ∈ tr2 ∧
        (∀ x, x ∈ tr2 ↔ x ∈ tr ∨ x ∈ new) ∧
        new.Nodup ∧ (∀ x ∈ new, x ∉ tr) ∧
        new.getLast? = some c ∧
        (∀ x ∈ new, Reachable g c x) ∧
        (∀ x ∈ new, ∀ y, Step g x y → y ∈ tr2) := by
    intro c tr vec hcs hctr hfuel
    obtain ⟨f, rfl⟩ : ∃ f, fuel = f + 1 := ⟨fuel - 1, by omega⟩
    obtain ⟨n, hn⟩ := Option.isSome_iff_exists.mp hcs
    have hfuel' : remaining g (setInsert tr c) + 1 ≤ f := by
      have := remaining_lt_insert g hcs hctr
      omega
    obtain ⟨tr2, new, hrun, htr, hl, hmem, hnd, hnotin, horig, hclose⟩ :=
      (ih f (by omega)).2 n.out (setInsert tr c) vec
        (outClosed_lookup hc hn) hfuel'
    have hcin : c ∈ setInsert tr c := mem_setInsert.mpr (Or.inl rfl)
    refine ⟨tr2, new ++ [c], ?_, ?_, htr _ hcin, ?_, ?_, ?_, ?_, ?_, ?_⟩
    · rw [dfsAux]
      rw [hn]
      dsimp only
      rw [hrun]
      dsimp only
      rw [List.append_assoc]
    · exact fun x hx => htr x (mem_setInsert.mpr (Or.inr hx))
    · intro x
      rw [hmem x, mem_setInsert]
      simp only [List.mem_append, List.mem_singleton]
      tauto
    · rw [List.nodup_append]
      refine ⟨hnd, List.nodup_singleton c, ?_⟩
      intro x hx hxc
      rw [List.mem_singleton] at hxc
      subst hxc
      exact hnotin x hx hcin
    · intro x hx
      rcases List.mem_append.mp hx with hx | hx
      · exact fun hxtr => hnotin x hx (mem_setInsert.mpr (Or.inr hxtr))
      · rw [List.mem_singleton] at hx
        subst hx
        exact hctr
    · exact List.getLast?_concat new
    · intro x hx
      rcases List.mem_append.mp hx with hx | hx
      · obtain ⟨nb, hnb, hreach⟩ := horig x hx
        exact Relation.ReflTransGen.head ⟨n, hn, hnb⟩ hreach
      · rw [List.mem_singleton] at hx
        subst hx
        exact Relation.ReflTransGen.refl
    · intro x hx y hstep
      rcases List.mem_append.mp hx with hx | hx
      · exact hclose x hx y hstep
      · rw [List.mem_singleton] at hx
        subst hx
        obtain ⟨n', hn', hy⟩ := hstep
        rw [hn] at hn'
        cases hn'
        exact hl y hy
  refine ⟨haux, ?_⟩
  intro l
  induction l with
  | nil =>
    intro tr vec _ _
    refine ⟨tr, [], ?_, fun x hx => hx, by simp, by simp, List.nodup_nil,
      by simp, by simp, by simp⟩
    rw [dfsLoop, List.append_nil]
  | cons nb rest ihl =>
    intro tr vec hall hfuel
    by_cases hmemt : nb ∈ tr
    · obtain ⟨tr2, new, hrun, htr, hl, hmem, hnd, hnotin, horig, hclose⟩ :=
        ihl tr vec (fun nb' h' => hall nb' (List.mem_cons_of_mem _ h'))
          hfuel
      refine ⟨tr2, new, ?_, htr, ?_, hmem, hnd, hnotin, ?_, hclose⟩
      · rw [dfsLoop, if_pos hmemt]
        exact hrun
      · intro nb' h'
        rcases List.mem_cons.mp h' with rfl | h'
        · exact htr nb' hmemt
        · exact hl nb' h'
      · intro x hx
        obtain ⟨nb', hnb', hreach⟩ := horig x hx
        exact ⟨nb', List.mem_cons_of_mem _ hnb', hreach⟩
    · obtain ⟨trA, newA, hrunA, htrA, hcA, hmemA, hndA, hnotinA, _,
        hreachA, hcloseA⟩ :=
        haux nb tr vec (hall nb (List.mem_cons_self _ _)) hmemt hfuel
      have hfuelA : remaining g trA + 1 ≤ fuel := by
        have := remaining_le_of_subset g htrA
        omega
      obtain ⟨tr2, newR, hrunR, htrR, hlR, hmemR, hndR, hnotinR, horigR,
        hcloseR⟩ :=
        ihl trA (vec ++ newA)
          (fun nb' h' => hall nb' (List.mem_cons_of_mem _ h')) hfuelA
      have hnewA_sub : ∀ x ∈ newA, x ∈ trA :=
        fun x hx => (hmemA x).mpr (Or.inr hx)
      refine ⟨tr2, newA ++ newR, ?_, ?_, ?_, ?_, ?_, ?_, ?_, ?_⟩
      · rw [dfsLoop, if_neg hmemt]
        rw [hrunA]
        dsimp only
        rw [hrunR, List.append_assoc]
      · exact fun x hx => htrR x (htrA x hx)
      · intro nb' h'
        rcases List.mem_cons.mp h' with rfl | h'
        · exact htrR nb' hcA
        · exact hlR nb' h'
      · intro x
        rw [hmemR x, hmemA x]
        simp only [List.mem_append]
        tauto
      · rw [List.nodup_append]
        exact ⟨hndA, hndR, fun x hxA hxR => hnotinR x hxR (hnewA_sub x hxA)⟩
      · intro x hx
        rcases List.mem_append.mp hx with hx | hx
        · exact hnotinA x hx
        · exact fun hxtr => hnotinR x hx (htrA x hxtr)
      · intro x hx
        rcases List.mem_append.mp hx with hx | hx
        · exact ⟨nb, List.mem_cons_self _ _, hreachA x hx⟩
        · obtain ⟨nb', hnb', hreach⟩ := horigR x hx
          exact ⟨nb', List.mem_cons_of_mem _ hnb', hreach⟩
      · intro x hx y hstep
        rcases List.mem_append.mp hx with hx | hx
        · exact htrR _ (hcloseA x hx y hstep)
        · exact hcloseR x hx y hstep

/-- C3: on a digraph whose out-references all resolve, `dfSearch` from an
existing root succeeds and emits the reachable identifiers in post-order:
each exactly once, the root last; a missing root raises `node_not_found`;
and on the diamond graph (arcs A→B, A→C, B→D, C→D) D is listed before both
B and C, with A last. -/
theorem dfSearch_postorder (g : Digraph) (root : Ident)
    (hc : OutClosed g) (hroot : (lookup g root).isSome) :
    (∃ out, dfSearch g root [] = some (none, out) ∧
      out.Nodup ∧ out.getLast? = some root ∧
      (∀ x, x ∈ out ↔ Reachable g root x)) ∧
    (∀ r, lookup g r = none → ∀ vec,
      dfSearch g r vec = some (some (.node_not_found "dfSearch" r), vec)) ∧
    (∃ outD, dfSearch gDiamond 1 [] = some (none, outD) ∧
      outD.indexOf 4 < outD.indexOf 2 ∧ outD.indexOf 4 < outD.indexOf 3 ∧
      outD.getLast? = some 1) := by
  refine ⟨?_, fun r hr vec => dfSearch_missing_root hr vec,
    ⟨[4, 2, 3, 1], by decide, by decide, by decide, by decide⟩⟩
  obtain ⟨tr2, new, hrun, htr, hcin, hmem, hnd, hnotin, hlast, hreach,
      hclose⟩ :=
    (dfs_spec g hc (g.nodes.length + 2)).1 root [] []
      hroot (List.not_mem_nil root)
      (by have := remaining_le_length g []; omega)
  have hmem' : ∀ z, z ∈ tr2 ↔ z ∈ new := by
    intro z
    rw [hmem z]
    simp
  refine ⟨new, ?_, hnd, hlast, fun x => ⟨hreach x, fun hx => ?_⟩⟩
  · unfold dfSearch
    rw [hrun]
    dsimp only
    rw [List.nil_append]
  · have hx' : Relation.ReflTransGen (Step g) root x := hx
    have hin2 : x ∈ tr2 := by
      induction hx' with
      | refl => exact hcin
      | tail hab hbc ihh => exact hclose _ ((hmem' _).mp (ihh hab)) _ hbc
    exact (hmem' x).mp hin2

/-- Witness for C3 at the diamond graph with root 1. -/
theorem dfSearch_postorder_witness :
    (∃ out, dfSearch gDiamond 1 [] = some (none, out) ∧
      out.Nodup ∧ out.getLast? = some 1 ∧
      (∀ x, x ∈ out ↔ Reachable gDiamond 1 x)) ∧
    (∀ r, lookup gDiamond r = none → ∀ vec,
      dfSearch gDiamond r vec =
        some (some (.node_not_found "dfSearch" r), vec)) ∧
    (∃ outD, dfSearch gDiamond 1 [] = some (none, outD) ∧
      outD.indexOf 4 < outD.indexOf 2 ∧ outD.indexOf 4 < outD.indexOf 3 ∧
      outD.getLast? = some 1) :=
  dfSearch_postorder gDiamond 1 (by decide) (by decide)

/-- C9: on a digraph whose out-references all resolve (cycles and
self-loops included), both searches terminate from any existing root: the
fuel that models the source's visited/traversed-set-bounded loop and
recursion is never exhausted. -/
theorem searches_terminate (g : Digraph) (root : Ident)
    (hc : OutClosed g) (hroot : (lookup g root).isSome) :
    bfSearch g root [] ≠ none ∧ dfSearch g root [] ≠ none := by
  constructor
  · rw [bfSearch_empty_eq]
    obtain ⟨out, hrun, -⟩ :=
      bfsLoop_reaches g root hc hroot (outTotal g + 2) 0 [root]
        (List.nodup_singleton root)
        (List.mem_singleton.mpr rfl)
        (by
          intro x hx
          rw [List.mem_singleton] at hx
          rw [hx]
          exact Relation.ReflTransGen.refl)
        (by simp)
        (by intro j hj; omega)
        (fun x hx => Or.inl (List.mem_singleton.mp hx))
        (by simp; omega)
    rw [hrun]
    simp
  · obtain ⟨tr2, new, hrun, -⟩ :=
      (dfs_spec g hc (g.nodes.length + 2)).1 root [] []
        hroot (List.not_mem_nil root)
        (by have := remaining_le_length g []; omega)
    unfold dfSearch
    rw [hrun]
    simp

/-- Witness for C9 on the cyclic graph (1→1, 1→2, 2→1). -/
theorem searches_terminate_witness :
    bfSearch gCycle 1 [] ≠ none ∧ dfSearch gCycle 1 [] ≠ none :=
  searches_terminate gCycle 1 (by decide) (by decide)

end DigraphSpec
